import Mathlib

/-!
Shallow embedding of the zero-knowledge proof engine (`ZKProofEngine`,
`src/unnamed/part_014`) of the Spark-X repository.

Modelling conventions:
* JS `bigint` values are embedded as `Int`.  The JS `%` operator on bigints is
  truncated remainder, embedded as `Int.tmod`; JS `/` on bigints truncates
  toward zero, embedded as `Int.tdiv`; `>> 1` on a positive bigint is `tdiv 2`.
* JS strings (all ASCII here) are embedded as `List Nat` of character codes.
* `crypto.createHash('sha256')` with `update`/`digest('hex')` is embedded by an
  executable SHA-256 (`sha256Hex`) over the concatenated byte lists.
* `BigInt(string)`, which throws a `SyntaxError` on a malformed numeric string,
  is embedded as `jsBigInt : List Nat → Option Int` following the JS
  `StringIntegerLiteral` grammar (whitespace trimming, empty string is `0`,
  optional sign for decimal literals, `0x`/`0o`/`0b` radix prefixes).
* Functions that can throw are embedded as `Except EngineError _`;
  `randomBytes`-derived values (witness randomness, blinding) are taken as
  explicit parameters, so every claim can quantify over them.
* The `while` loops of `modPow` and `modInverse` are embedded as fuel-indexed
  structural recursions so that all definitions compute inside the kernel; the
  fuel chosen at the call sites is proved (and in concrete evaluations checked)
  to dominate the number of loop iterations.  In `modInverse`, JS would throw a
  division-by-zero error if the Euclidean loop reached a zero divisor while
  `a > 1`; that state is reachable only when `gcd(a, m) ≠ 1`, which never holds
  in the engine (the modulus is prime), and the embedding uses Lean's total
  division (division by zero yields 0) at that unreachable point.
-/

/-! ## SHA-256 (FIPS 180-4), executable over byte lists -/

/-- Truncate to a 32-bit word. -/
def wrap32 (n : Nat) : Nat := n % 4294967296

/-- 32-bit modular addition. -/
def add32 (a b : Nat) : Nat := (a + b) % 4294967296

/-- Right-rotation of a 32-bit word by `n` bits. -/
def rotr32 (n x : Nat) : Nat := ((x >>> n) ||| (x <<< (32 - n))) % 4294967296

/-- SHA-256 big sigma 0. -/
def bsig0 (x : Nat) : Nat := rotr32 2 x ^^^ rotr32 13 x ^^^ rotr32 22 x

/-- SHA-256 big sigma 1. -/
def bsig1 (x : Nat) : Nat := rotr32 6 x ^^^ rotr32 11 x ^^^ rotr32 25 x

/-- SHA-256 small sigma 0. -/
def ssig0 (x : Nat) : Nat := rotr32 7 x ^^^ rotr32 18 x ^^^ (x >>> 3)

/-- SHA-256 small sigma 1. -/
def ssig1 (x : Nat) : Nat := rotr32 17 x ^^^ rotr32 19 x ^^^ (x >>> 10)

/-- SHA-256 choice function. -/
def chFun (x y z : Nat) : Nat := (x &&& y) ^^^ ((x ^^^ 4294967295) &&& z)

/-- SHA-256 majority function. -/
def majFun (x y z : Nat) : Nat := (x &&& y) ^^^ (x &&& z) ^^^ (y &&& z)

/-- SHA-256 round constants (fractional parts of cube roots of the first 64
primes). -/
def sha256K : List Nat :=
  [1116352408, 1899447441, 3049323471, 3921009573, 961987163, 1508970993,
   2453635748, 2870763221, 3624381080, 310598401, 607225278, 1426881987,
   1925078388, 2162078206, 2614888103, 3248222580, 3835390401, 4022224774,
   264347078, 604807628, 770255983, 1249150122, 1555081692, 1996064986,
   2554220882, 2821834349, 2952996808, 3210313671, 3336571891, 3584528711,
   113926993, 338241895, 666307205, 773529912, 1294757372, 1396182291,
   1695183700, 1986661051, 2177026350, 2456956037, 2730485921, 2820302411,
   3259730800, 3345764771, 3516065817, 3600352804, 4094571909, 275423344,
   430227734, 506948616, 659060556, 883997877, 958139571, 1322822218,
   1537002063, 1747873779, 1955562222, 2024104815, 2227730452, 2361852424,
   2428436474, 2756734187, 3204031479, 3329325298]

/-- SHA-256 initial hash value (fractional parts of square roots of the first 8
primes). -/
def sha256H0 : List Nat :=
  [1779033703, 3144134277, 1013904242, 2773480762,
   1359893119, 2600822924, 528734635, 1541459225]

/-- Group a big-endian byte list into 32-bit words (length assumed divisible by
4, as produced by padding). -/
def bytesToWords : List Nat → List Nat
  | b0 :: b1 :: b2 :: b3 :: rest =>
      ((((b0 <<< 8) ||| b1) <<< 8 ||| b2) <<< 8 ||| b3) :: bytesToWords rest
  | _ => []

/-- Group a word list into 16-word blocks (length assumed divisible by 16). -/
def toBlocks : List Nat → List (List Nat)
  | w0 :: w1 :: w2 :: w3 :: w4 :: w5 :: w6 :: w7 ::
    w8 :: w9 :: w10 :: w11 :: w12 :: w13 :: w14 :: w15 :: rest =>
      [w0, w1, w2, w3, w4, w5, w6, w7, w8, w9, w10, w11, w12, w13, w14, w15] ::
        toBlocks rest
  | _ => []

/-- Extend the 16-word block by `k` further message-schedule words. -/
def extendSchedule : Nat → List Nat → List Nat
  | 0, ws => ws
  | k + 1, ws =>
      let n := ws.length
      let x := add32 (add32 (ssig1 (ws.getD (n - 2) 0)) (ws.getD (n - 7) 0))
                     (add32 (ssig0 (ws.getD (n - 15) 0)) (ws.getD (n - 16) 0))
      extendSchedule k (ws ++ [x])

/-- One SHA-256 compression round; the state is the 8-word list
`[a, b, c, d, e, f, g, h]`. -/
def roundStep (st : List Nat) (kw : Nat × Nat) : List Nat :=
  match st with
  | [a, b, c, d, e, f, g, h] =>
      let t1 := add32 (add32 (add32 h (bsig1 e)) (add32 (chFun e f g) kw.1)) kw.2
      let t2 := add32 (bsig0 a) (majFun a b c)
      [add32 t1 t2, a, b, c, add32 d t1, e, f, g]
  | other => other

/-- Compress one 16-word block into the running hash. -/
def compressBlock (h : List Nat) (block : List Nat) : List Nat :=
  let ws := extendSchedule 48 block
  let st := (sha256K.zip ws).foldl roundStep h
  List.zipWith add32 h st

/-- SHA-256 padding of a byte message. -/
def padMessage (msg : List Nat) : List Nat :=
  let len := msg.length
  let zeros := (64 - ((len + 9) % 64)) % 64
  let bitLen := 8 * len
  msg ++ [128] ++ List.replicate zeros 0 ++
    [(bitLen >>> 56) % 256, (bitLen >>> 48) % 256, (bitLen >>> 40) % 256,
     (bitLen >>> 32) % 256, (bitLen >>> 24) % 256, (bitLen >>> 16) % 256,
     (bitLen >>> 8) % 256, bitLen % 256]

/-- SHA-256 digest of a byte message, as 8 32-bit words. -/
def sha256Words (msg : List Nat) : List Nat :=
  (toBlocks (bytesToWords (padMessage msg))).foldl compressBlock sha256H0

/-- Lowercase hexadecimal digit character code of a nibble. -/
def hexDigitChar (n : Nat) : Nat := if n < 10 then 48 + n else 87 + n

/-- Render a 32-bit word as 8 lowercase hex character codes. -/
def wordToHex (w : Nat) : List Nat :=
  [hexDigitChar ((w >>> 28) % 16), hexDigitChar ((w >>> 24) % 16),
   hexDigitChar ((w >>> 20) % 16), hexDigitChar ((w >>> 16) % 16),
   hexDigitChar ((w >>> 12) % 16), hexDigitChar ((w >>> 8) % 16),
   hexDigitChar ((w >>> 4) % 16), hexDigitChar (w % 16)]

/-- Hex digest of a byte message: the embedding of
`createHash('sha256')....digest('hex')`. -/
def sha256Hex (msg : List Nat) : List Nat :=
  (sha256Words msg).foldr (fun w acc => wordToHex w ++ acc) []

/-! ## Decimal rendering (JS `BigInt.prototype.toString`) -/

/-- Accumulate the decimal digits of `n` (most significant first); the fuel is
an upper bound on the number of digits, `n` itself always suffices. -/
def natToDecAux : Nat → Nat → List Nat → List Nat
  | 0, _, acc => acc
  | fuel + 1, n, acc =>
      if n = 0 then acc else natToDecAux fuel (n / 10) ((48 + n % 10) :: acc)

/-- Decimal character codes of a natural number. -/
def natToDec (n : Nat) : List Nat :=
  if n = 0 then [48] else natToDecAux n n []

/-- Decimal character codes of an integer, embedding `bigint.toString()`. -/
def intToDec (i : Int) : List Nat :=
  if i < 0 then 45 :: natToDec (-i).toNat else natToDec i.toNat

/-! ## JS `BigInt(string)` parsing -/

/-- ASCII whitespace recognised by the JS numeric-string grammar. -/
def isWsChar (c : Nat) : Bool :=
  c == 32 || c == 9 || c == 10 || c == 13 || c == 12 || c == 11

/-- Trim whitespace from both ends of a character-code list. -/
def trimWs (s : List Nat) : List Nat :=
  ((s.dropWhile isWsChar).reverse.dropWhile isWsChar).reverse

/-- Decimal digit value of a character code. -/
def decDigitVal (c : Nat) : Option Nat :=
  if 48 ≤ c ∧ c ≤ 57 then some (c - 48) else none

/-- Hexadecimal digit value of a character code (both cases accepted). -/
def hexDigitVal (c : Nat) : Option Nat :=
  if 48 ≤ c ∧ c ≤ 57 then some (c - 48)
  else if 97 ≤ c ∧ c ≤ 102 then some (c - 87)
  else if 65 ≤ c ∧ c ≤ 70 then some (c - 55)
  else none

/-- Octal digit value of a character code. -/
def octDigitVal (c : Nat) : Option Nat :=
  if 48 ≤ c ∧ c ≤ 55 then some (c - 48) else none

/-- Binary digit value of a character code. -/
def binDigitVal (c : Nat) : Option Nat :=
  if c = 48 ∨ c = 49 then some (c - 48) else none

/-- Fold a digit list into its value in the given radix; `none` on any
non-digit. -/
def parseDigits (digitVal : Nat → Option Nat) (radix : Nat) :
    List Nat → Nat → Option Nat
  | [], acc => some acc
  | c :: rest, acc =>
      match digitVal c with
      | none => none
      | some d => parseDigits digitVal radix rest (radix * acc + d)

/-- Embedding of JS `BigInt(string)`: `some` value on a well-formed numeric
string, `none` where JS throws a `SyntaxError`. -/
def jsBigInt (s : List Nat) : Option Int :=
  match trimWs s with
  | [] => some 0
  | 48 :: 120 :: rest =>
      if rest.isEmpty then none else (parseDigits hexDigitVal 16 rest 0).map Int.ofNat
  | 48 :: 88 :: rest =>
      if rest.isEmpty then none else (parseDigits hexDigitVal 16 rest 0).map Int.ofNat
  | 48 :: 111 :: rest =>
      if rest.isEmpty then none else (parseDigits octDigitVal 8 rest 0).map Int.ofNat
  | 48 :: 79 :: rest =>
      if rest.isEmpty then none else (parseDigits octDigitVal 8 rest 0).map Int.ofNat
  | 48 :: 98 :: rest =>
      if rest.isEmpty then none else (parseDigits binDigitVal 2 rest 0).map Int.ofNat
  | 48 :: 66 :: rest =>
      if rest.isEmpty then none else (parseDigits binDigitVal 2 rest 0).map Int.ofNat
  | 43 :: rest =>
      if rest.isEmpty then none else (parseDigits decDigitVal 10 rest 0).map Int.ofNat
  | 45 :: rest =>
      if rest.isEmpty then none
      else (parseDigits decDigitVal 10 rest 0).map (fun n => -(Int.ofNat n))
  | t => (parseDigits decDigitVal 10 t 0).map Int.ofNat

/-- Numeric value of a list of hex digit characters (used for the internally
produced, always well-formed, hex digest in `BigInt('0x' + challenge)`). -/
def hexValue (s : List Nat) : Nat :=
  (parseDigits hexDigitVal 16 s 0).getD 0

/-! ## The engine's modular arithmetic -/

/-- Body of the `modPow` square-and-multiply `while` loop.  One fuel unit is
consumed per iteration; the loop runs at most `log2 e + 1` times, so any fuel
not smaller than the bit length of the exponent is enough (the call site passes
`e.toNat`). -/
def modPowAux (m : Int) : Nat → Int → Int → Int → Int
  | 0, _, _, result => result
  | fuel + 1, base, e, result =>
      if e ≤ 0 then result
      else
        modPowAux m fuel ((base * base).tmod m) (e.tdiv 2)
          (if e.tmod 2 = 1 then (result * base).tmod m else result)

/-- Embedding of `ZKProofEngine.modPow`. -/
def modPow (base exponent m : Int) : Int :=
  if m = 1 then 0 else modPowAux m exponent.toNat (base.tmod m) exponent 1

/-- Body of the `modInverse` extended-Euclid `while` loop, returning the final
`x1`.  One fuel unit per iteration; the second Euclid component strictly
decreases, so fuel `m.toNat + 1` is enough. -/
def modInverseLoop : Nat → Int → Int → Int → Int → Int
  | 0, _, _, _, x1 => x1
  | fuel + 1, a, m, x0, x1 =>
      if a ≤ 1 then x1
      else modInverseLoop fuel m (a.tmod m) (x1 - a.tdiv m * x0) x0

/-- Embedding of `ZKProofEngine.modInverse`. -/
def modInverse (a m : Int) : Int :=
  if m = 1 then 0
  else
    let x1 := modInverseLoop (m.toNat + 1) a m 0 1
    if x1 < 0 then x1 + m else x1

/-! ## The engine -/

/-- Error taxonomy of the thrown exceptions: `outOfRange` is
`throw new Error('Value out of range')`, `invalidCommitment` is
`throw new Error('Invalid commitment')`, and `numericSyntax` is the JS
`SyntaxError` thrown by `BigInt` on a malformed numeric string. -/
inductive EngineError where
  | outOfRange
  | invalidCommitment
  | numericSyntax
deriving DecidableEq

/-- Embedding of the `Witness` interface. -/
structure Witness where
  secretValue : Int
  randomness : Int
deriving DecidableEq

/-- Embedding of the `Statement` interface; `commitment` is a character-code
string. -/
structure Statement where
  publicValue : Int
  commitment : List Nat
deriving DecidableEq

/-- Embedding of the `Proof` interface. -/
structure Proof where
  challenge : List Nat
  response : Int
  commitment : List Nat
deriving DecidableEq

/-- The engine's hardcoded generator. -/
def generator : Int := 2

/-- The engine's hardcoded modulus. -/
def modulus : Int :=
  115792089237316195423570985008687907853269984665640564039457584007908834671663

/-- Embedding of `ZKProofEngine.computeCommitment`. -/
def computeCommitment (w : Witness) : List Nat :=
  intToDec
    ((modPow generator w.secretValue modulus *
        modPow generator w.randomness modulus).tmod modulus)

/-- Embedding of `ZKProofEngine.generateChallenge` (Fiat–Shamir): SHA-256 over
the concatenation of the three `update`d strings. -/
def generateChallenge (stmt : Statement) (tempCommitment : List Nat) : List Nat :=
  sha256Hex (intToDec stmt.publicValue ++ stmt.commitment ++ tempCommitment)

/-- Embedding of `ZKProofEngine.generateProof`; `randomBlinding` is the
`randomBytes`-derived blinding, passed explicitly.  The internally produced
challenge is always a well-formed hex digest, so `BigInt('0x' + challenge)`
is embedded by `hexValue`. -/
def generateProof (randomBlinding : Int) (stmt : Statement) (w : Witness) :
    Except EngineError Proof :=
  if computeCommitment w ≠ stmt.commitment then .error .invalidCommitment
  else
    let tempCommitment := modPow generator randomBlinding modulus
    let challenge := generateChallenge stmt (intToDec tempCommitment)
    let challengeInt : Int := Int.ofNat (hexValue challenge)
    let response := (randomBlinding + challengeInt * w.secretValue).tmod (modulus - 1)
    .ok ⟨challenge, response, stmt.commitment⟩

/-- Embedding of `ZKProofEngine.verifyProof`.  The two untrusted `BigInt`
parses are the only places the source can throw. -/
def verifyProof (stmt : Statement) (proof : Proof) : Except EngineError Bool :=
  let leftSide := modPow generator proof.response modulus
  match jsBigInt proof.commitment with
  | none => .error .numericSyntax
  | some commitmentValue =>
    match jsBigInt (48 :: 120 :: proof.challenge) with
    | none => .error .numericSyntax
    | some challengeValue =>
      let rightSide := modPow commitmentValue challengeValue modulus
      let computedTempCommitment :=
        (leftSide * modInverse rightSide modulus).tmod modulus
      let expectedChallenge :=
        generateChallenge stmt (intToDec computedTempCommitment)
      .ok (expectedChallenge == proof.challenge)

/-- Embedding of `ZKProofEngine.createRangeProof`; `randomness` and
`randomBlinding` are the two `randomBytes` draws, passed explicitly. -/
def createRangeProof (randomness randomBlinding : Int)
    (value lowerBound upperBound : Int) : Except EngineError Proof :=
  if value < lowerBound ∨ value > upperBound then .error .outOfRange
  else
    let w : Witness := ⟨value, randomness⟩
    let stmt : Statement := ⟨upperBound, computeCommitment w⟩
    generateProof randomBlinding stmt w

/-- Embedding of `ZKProofEngine.verifyRangeProof`; note the source never reads
`lowerBound`. -/
def verifyRangeProof (proof : Proof) (lowerBound upperBound : Int) :
    Except EngineError Bool :=
  verifyProof ⟨upperBound, proof.commitment⟩ proof

deriving instance DecidableEq for Except

/-! ## Correctness of `modPow` -/

/-- Truncated remainder is odd in its dividend. -/
theorem tmod_neg_left (a b : Int) : (-a).tmod b = -(a.tmod b) := by
  rw [Int.tmod_def, Int.tmod_def, Int.neg_tdiv]
  ring

/-- Truncated remainder by a positive modulus is idempotent. -/
theorem tmod_tmod (b m : Int) (hm : 0 < m) : (b.tmod m).tmod m = b.tmod m := by
  rcases le_or_lt 0 b with hb | hb
  · exact Int.tmod_eq_of_lt (Int.tmod_nonneg m hb) (Int.tmod_lt_of_pos b hm)
  · have h1 : b.tmod m = -((-b).tmod m) := by
      rw [← tmod_neg_left, neg_neg]
    rw [h1, tmod_neg_left,
      Int.tmod_eq_of_lt (Int.tmod_nonneg m (by omega)) (Int.tmod_lt_of_pos (-b) hm)]

/-- The square-and-multiply loop body is odd in its accumulator. -/
theorem modPowAux_neg_result (m : Int) :
    ∀ (fuel n : Nat) (base r : Int),
      modPowAux m fuel base (Int.ofNat n) (-r) =
        -(modPowAux m fuel base (Int.ofNat n) r) := by
  intro fuel
  induction fuel with
  | zero => intro n base r; rfl
  | succ fuel ih =>
    intro n base r
    by_cases hn : (Int.ofNat n : Int) ≤ 0
    · have h0 : n = 0 := by
        simp only [Int.ofNat_eq_coe] at hn
        omega
      subst h0
      rfl
    · have hdiv : (Int.ofNat n).tdiv 2 = Int.ofNat (n / 2) := rfl
      have hmod : (Int.ofNat n).tmod 2 = Int.ofNat (n % 2) := rfl
      by_cases hpar : (Int.ofNat n).tmod 2 = 1
      · have h1 : -r * base = -(r * base) := by ring
        simp only [modPowAux, if_neg hn, if_pos hpar, hdiv, h1, tmod_neg_left]
        exact ih (n / 2) _ _
      · simp only [modPowAux, if_neg hn, if_neg hpar, hdiv]
        exact ih (n / 2) _ _

/-- Negating the running base flips the sign of the result exactly when the
remaining exponent is odd. -/
theorem modPowAux_neg_base (m : Int) :
    ∀ (fuel n : Nat), n < 2 ^ fuel → ∀ (c r : Int),
      modPowAux m fuel (-c) (Int.ofNat n) r =
        (if n % 2 = 1 then -(modPowAux m fuel c (Int.ofNat n) r)
         else modPowAux m fuel c (Int.ofNat n) r) := by
  intro fuel
  cases fuel with
  | zero =>
    intro n hn c r
    have h0 : n = 0 := by omega
    subst h0
    rfl
  | succ fuel =>
    intro n hn c r
    by_cases hn0 : n = 0
    · subst hn0
      simp [modPowAux]
    · have hnpos : ¬ ((Int.ofNat n : Int) ≤ 0) := by
        simp only [Int.ofNat_eq_coe]
        omega
      have hdiv : (Int.ofNat n).tdiv 2 = Int.ofNat (n / 2) := rfl
      have hmod : (Int.ofNat n).tmod 2 = Int.ofNat (n % 2) := rfl
      have hbase : -c * -c = c * c := by ring
      by_cases hpar : n % 2 = 1
      · have hcond : (Int.ofNat n).tmod 2 = 1 := by
          rw [hmod, hpar]; rfl
        have h1 : r * -c = -(r * c) := by ring
        simp only [modPowAux, if_neg hnpos, if_pos hcond, hdiv, hbase, h1,
          tmod_neg_left, if_pos hpar, modPowAux_neg_result]
      · have hcond : ¬ ((Int.ofNat n).tmod 2 = 1) := by
          have h0 : n % 2 = 0 := by omega
          rw [hmod, h0]
          decide
        simp only [modPowAux, if_neg hnpos, if_neg hcond, hdiv, hbase,
          if_neg hpar]

/-- Invariant of the square-and-multiply loop: over a nonnegative running base
and a reduced nonnegative accumulator it computes `result * base ^ n mod m`. -/
theorem modPowAux_eq (m : Int) (hm : 2 ≤ m) :
    ∀ (fuel n : Nat) (base result : Int), 0 ≤ base → 0 ≤ result → result < m →
      n < 2 ^ fuel →
      modPowAux m fuel base (Int.ofNat n) result = (result * base ^ n) % m := by
  intro fuel
  induction fuel with
  | zero =>
    intro n base result hb hr hrm hn
    have h0 : n = 0 := by omega
    subst h0
    show result = (result * base ^ 0) % m
    rw [pow_zero, mul_one, Int.emod_eq_of_lt hr hrm]
  | succ fuel ih =>
    intro n base result hb hr hrm hn
    by_cases hn0 : n = 0
    · subst hn0
      show result = (result * base ^ 0) % m
      rw [pow_zero, mul_one, Int.emod_eq_of_lt hr hrm]
    · have hnpos : ¬ ((Int.ofNat n : Int) ≤ 0) := by
        simp only [Int.ofNat_eq_coe]
        omega
      have hdiv : (Int.ofNat n).tdiv 2 = Int.ofNat (n / 2) := rfl
      have hmod2 : (Int.ofNat n).tmod 2 = Int.ofNat (n % 2) := rfl
      have hm0 : (0 : Int) < m := by omega
      have hmne : m ≠ 0 := by omega
      have hhalf : n / 2 < 2 ^ fuel := by
        rw [Nat.div_lt_iff_lt_mul (by norm_num : 0 < 2), ← pow_succ]
        exact hn
      have hbb : (base * base).tmod m = (base * base) % m :=
        Int.tmod_eq_emod (mul_nonneg hb hb) (le_of_lt hm0)
      have hsq : ((base * base) % m) ^ (n / 2) ≡ (base * base) ^ (n / 2) [ZMOD m] :=
        (Int.mod_modEq _ _).pow _
      by_cases hpar : n % 2 = 1
      · have hcond : (Int.ofNat n).tmod 2 = 1 := by
          rw [hmod2, hpar]; rfl
        have hres : (result * base).tmod m = (result * base) % m :=
          Int.tmod_eq_emod (mul_nonneg hr hb) (le_of_lt hm0)
        simp only [modPowAux, if_neg hnpos, if_pos hcond, hdiv, hres, hbb]
        rw [ih (n / 2) ((base * base) % m) ((result * base) % m)
          (Int.emod_nonneg _ hmne) (Int.emod_nonneg _ hmne)
          (Int.emod_lt_of_pos _ hm0) hhalf]
        have hsplit : result * base * (base * base) ^ (n / 2) = result * base ^ n := by
          have hn2 : n = 2 * (n / 2) + 1 := by omega
          calc result * base * (base * base) ^ (n / 2)
              = result * base * (base ^ 2) ^ (n / 2) := by rw [← pow_two]
            _ = result * base * base ^ (2 * (n / 2)) := by rw [← pow_mul]
            _ = result * base ^ (2 * (n / 2) + 1) := by rw [pow_succ]; ring
            _ = result * base ^ n := by rw [← hn2]
        calc (((result * base) % m) * (((base * base) % m) ^ (n / 2))) % m
            = (result * base * ((base * base) ^ (n / 2))) % m :=
              (Int.mod_modEq _ _).mul hsq
          _ = (result * base ^ n) % m := by rw [hsplit]
      · have hcond : ¬ ((Int.ofNat n).tmod 2 = 1) := by
          have h0 : n % 2 = 0 := by omega
          rw [hmod2, h0]
          decide
        simp only [modPowAux, if_neg hnpos, if_neg hcond, hdiv, hbb]
        rw [ih (n / 2) ((base * base) % m) result
          (Int.emod_nonneg _ hmne) hr hrm hhalf]
        have hsplit : result * (base * base) ^ (n / 2) = result * base ^ n := by
          have hn2 : n = 2 * (n / 2) := by omega
          calc result * (base * base) ^ (n / 2)
              = result * (base ^ 2) ^ (n / 2) := by rw [← pow_two]
            _ = result * base ^ (2 * (n / 2)) := by rw [← pow_mul]
            _ = result * base ^ n := by rw [← hn2]
        calc (result * (((base * base) % m) ^ (n / 2))) % m
            = (result * ((base * base) ^ (n / 2))) % m :=
              (Int.ModEq.refl result).mul hsq
          _ = (result * base ^ n) % m := by rw [hsplit]

/-- On a nonnegative base, `modPow` computes `base ^ e mod m` (Euclidean
remainder). -/
theorem modPow_eq_pow_emod (b e m : Int) (hb : 0 ≤ b) (he : 0 ≤ e)
    (hm : 1 ≤ m) : modPow b e m = (b ^ e.toNat) % m := by
  rcases eq_or_lt_of_le hm with h1 | h2
  · subst h1
    rw [modPow, if_pos rfl, Int.emod_one]
  · have hm1 : m ≠ 1 := by omega
    obtain ⟨k, rfl⟩ : ∃ k : Nat, e = Int.ofNat k :=
      ⟨e.toNat, (Int.toNat_of_nonneg he).symm⟩
    have hk : (Int.ofNat k).toNat = k := rfl
    rw [modPow, if_neg hm1, hk, Int.tmod_eq_emod hb (by omega : (0 : Int) ≤ m)]
    rw [modPowAux_eq m (by omega) k k (b % m) 1 (Int.emod_nonneg b (by omega))
      (by norm_num) (by omega) (Nat.lt_two_pow k)]
    rw [one_mul]
    exact (Int.mod_modEq b m).pow k

/-- On any base, `modPow` computes `base ^ e` reduced by the source's own `%`
(truncated remainder, which JS bigints use). -/
theorem modPow_eq_pow_tmod (b e m : Int) (he : 0 ≤ e) (hm : 1 ≤ m) :
    modPow b e m = (b ^ e.toNat).tmod m := by
  rcases le_or_lt 0 b with hb | hb
  · rw [modPow_eq_pow_emod b e m hb he hm,
      Int.tmod_eq_emod (pow_nonneg hb _) (by omega)]
  · rcases eq_or_lt_of_le hm with h1 | h2
    · subst h1
      rw [modPow, if_pos rfl, Int.tmod_one]
    · have hm1 : m ≠ 1 := by omega
      obtain ⟨k, rfl⟩ : ∃ k : Nat, e = Int.ofNat k :=
        ⟨e.toNat, (Int.toNat_of_nonneg he).symm⟩
      have hk : (Int.ofNat k).toNat = k := rfl
      have hbd : b = -(-b) := (neg_neg b).symm
      have hdpos : (0 : Int) ≤ -b := by omega
      have h1 : b.tmod m = -((-b).tmod m) := by
        rw [hbd, tmod_neg_left, neg_neg, tmod_neg_left]
      rw [modPow, if_neg hm1, hk, h1,
        modPowAux_neg_base m k k (Nat.lt_two_pow k) ((-b).tmod m) 1]
      have hcm : (-b).tmod m = (-b) % m := Int.tmod_eq_emod hdpos (by omega)
      have haux : modPowAux m k ((-b).tmod m) (Int.ofNat k) 1 = ((-b) ^ k) % m := by
        rw [hcm, modPowAux_eq m (by omega) k k ((-b) % m) 1
          (Int.emod_nonneg _ (by omega)) (by norm_num) (by omega)
          (Nat.lt_two_pow k), one_mul]
        exact (Int.mod_modEq (-b) m).pow k
      have hrhs : (b ^ k).tmod m =
          (if k % 2 = 1 then -(((-b) ^ k) % m) else ((-b) ^ k) % m) := by
        have hdk : ((-b) ^ k).tmod m = ((-b) ^ k) % m :=
          Int.tmod_eq_emod (pow_nonneg hdpos _) (by omega)
        by_cases hp : k % 2 = 1
        · have hodd : Odd k := Nat.odd_iff.mpr hp
          rw [if_pos hp, hbd, hodd.neg_pow, tmod_neg_left, hdk]
          simp only [neg_neg]
        · have heven : Even k := Nat.even_iff.mpr (by omega)
          rw [if_neg hp, hbd, heven.neg_pow, hdk]
          simp only [neg_neg]
      rw [haux, hrhs]

/-! ## Correctness of `modInverse` -/

/-- Invariant-based correctness of the extended-Euclid loop of `modInverse`.
`a0`, `m0` are the original arguments.  The invariants: the pair `(a, m)` is
congruent to `(x1·a0, x0·a0)` mod `m0`, the coefficients `x1`, `x0` have
opposite signs, `|x1|·m + |x0|·a = m0`, and a Bézout identity `u·a + v·m = 1`
witnesses coprimality.  The loop then returns a coefficient `x` with
`x·a0 ≡ 1 (mod m0)` and `|x| ≤ m0 - 1`. -/
theorem modInverseLoop_spec (a0 m0 : Int) (hm0 : 2 ≤ m0) :
    ∀ (fuel : Nat) (a m x0 x1 u v : Int),
      1 ≤ a → 1 ≤ m → m.toNat < fuel →
      u * a + v * m = 1 →
      a ≡ x1 * a0 [ZMOD m0] → m ≡ x0 * a0 [ZMOD m0] →
      x1 * x0 ≤ 0 →
      |x1| * m + |x0| * a = m0 →
      (modInverseLoop fuel a m x0 x1) * a0 ≡ 1 [ZMOD m0] ∧
        |modInverseLoop fuel a m x0 x1| ≤ m0 - 1 := by
  intro fuel
  induction fuel with
  | zero =>
    intro a m x0 x1 u v ha hm hfuel
    exact absurd hfuel (Nat.not_lt_zero _)
  | succ fuel ih =>
    intro a m x0 x1 u v ha hm hfuel hbez hca hcm hsign hF
    by_cases ha1 : a ≤ 1
    · have ha' : a = 1 := le_antisymm ha1 ha
      subst ha'
      have hret : modInverseLoop (fuel + 1) 1 m x0 x1 = x1 := by
        simp [modInverseLoop]
      rw [hret]
      refine ⟨hca.symm, ?_⟩
      have h1 : |x1| * m + |x0| = m0 := by
        have h := hF
        rw [mul_one] at h
        exact h
      have hx1nn := abs_nonneg x1
      have hx0nn := abs_nonneg x0
      have h2 : |x1| * 1 ≤ |x1| * m := mul_le_mul_of_nonneg_left hm hx1nn
      have h3 : |x1| ≤ m0 := by nlinarith
      rcases eq_or_lt_of_le h3 with heq | hlt
      · exfalso
        have hx0z : |x0| = 0 := by nlinarith
        have hx1pos : (0 : Int) < |x1| := by rw [heq]; omega
        have hm1 : m = 1 := by nlinarith
        have hx0 : x0 = 0 := abs_eq_zero.mp hx0z
        rw [hm1, hx0, zero_mul] at hcm
        have h10 : (1 : Int) % m0 = 0 % m0 := hcm
        rw [Int.zero_emod, Int.emod_eq_of_lt (by norm_num) (by omega)] at h10
        exact absurd h10 one_ne_zero
      · have := Int.lt_iff_add_one_le.mp hlt
        linarith
    · have ha2 : 2 ≤ a := by omega
      have hstep : modInverseLoop (fuel + 1) a m x0 x1 =
          modInverseLoop fuel m (a.tmod m) (x1 - a.tdiv m * x0) x0 := by
        simp [modInverseLoop, ha1]
      rw [hstep]
      have hm0' : (0 : Int) < m := by omega
      have hrnn : 0 ≤ a.tmod m := Int.tmod_nonneg m (by omega)
      have hrlt : a.tmod m < m := Int.tmod_lt_of_pos a hm0'
      have hid : a = a.tdiv m * m + a.tmod m := by
        have h := Int.tdiv_add_tmod a m
        linarith
      have hqpos : 0 ≤ a.tdiv m := Int.tdiv_nonneg (by omega) (by omega)
      have hbez' : (u * a.tdiv m + v) * m + u * (a.tmod m) = 1 := by
        linear_combination hbez - u * hid
      have habs : |x1 - a.tdiv m * x0| = |x1| + a.tdiv m * |x0| := by
        rcases mul_nonpos_iff.mp hsign with ⟨hx1, hx0⟩ | ⟨hx1, hx0⟩
        · have hqx0 : a.tdiv m * x0 ≤ 0 :=
            mul_nonpos_iff.mpr (Or.inl ⟨hqpos, hx0⟩)
          rw [abs_of_nonneg (by linarith : (0 : Int) ≤ x1 - a.tdiv m * x0),
            abs_of_nonneg hx1, abs_of_nonpos hx0]
          ring
        · have hqx0 : 0 ≤ a.tdiv m * x0 := mul_nonneg hqpos hx0
          rw [abs_of_nonpos (by linarith : x1 - a.tdiv m * x0 ≤ 0),
            abs_of_nonpos hx1, abs_of_nonneg hx0]
          ring
      have hFnew : |x0| * (a.tmod m) + |x1 - a.tdiv m * x0| * m = m0 := by
        calc |x0| * (a.tmod m) + |x1 - a.tdiv m * x0| * m
            = |x0| * (a.tmod m) + (|x1| + a.tdiv m * |x0|) * m := by rw [habs]
          _ = |x1| * m + |x0| * (a.tdiv m * m + a.tmod m) := by ring
          _ = |x1| * m + |x0| * a := by rw [← hid]
          _ = m0 := hF
      by_cases hr0 : a.tmod m = 0
      · have hm1 : m = 1 := by
          have h : m * (u * a.tdiv m + v) = 1 := by
            rw [hr0] at hbez'
            linarith [hbez']
          exact Int.eq_one_of_mul_eq_one_right (by omega) h
        obtain ⟨f2, rfl⟩ : ∃ f2, fuel = f2 + 1 := ⟨fuel - 1, by omega⟩
        rw [hr0, hm1]
        have hret : modInverseLoop (f2 + 1) 1 0 (x1 - a.tdiv 1 * x0) x0 = x0 := by
          simp [modInverseLoop]
        rw [hret]
        rw [hm1] at hcm
        refine ⟨hcm.symm, ?_⟩
        rw [hm1, mul_one] at hF
        have h2a : 2 * |x0| ≤ |x0| * a := by nlinarith [abs_nonneg x0]
        have h2b : |x0| * a ≤ m0 := by linarith [abs_nonneg x1]
        linarith
      · have hr1 : 1 ≤ a.tmod m := by omega
        refine ih m (a.tmod m) (x1 - a.tdiv m * x0) x0 (u * a.tdiv m + v) u
          (by omega) hr1 (by omega) hbez' hcm ?_ ?_ hFnew
        · have h2 : (x1 - a.tdiv m * x0) * a0 = x1 * a0 - a.tdiv m * (x0 * a0) := by
            ring
          have h3 : a.tmod m = a - a.tdiv m * m := by linarith
          rw [h3, h2]
          exact hca.sub (hcm.mul_left (a.tdiv m))
        · rcases mul_nonpos_iff.mp hsign with ⟨hx1, hx0⟩ | ⟨hx1, hx0⟩
          · have hqx0 : a.tdiv m * x0 ≤ 0 :=
              mul_nonpos_iff.mpr (Or.inl ⟨hqpos, hx0⟩)
            exact mul_nonpos_iff.mpr (Or.inr ⟨hx0, by linarith⟩)
          · have hqx0 : 0 ≤ a.tdiv m * x0 := mul_nonneg hqpos hx0
            exact mul_nonpos_iff.mpr (Or.inl ⟨hx0, by linarith⟩)

/-! ## Claims -/

set_option maxRecDepth 100000 in
set_option maxHeartbeats 1000000 in
/-- C1: the spec claims the range-proof round trip is complete for every value
within the bounds and every choice of the internal randomness, and in
particular that `createRangeProof(75000, 50000, 100000)` followed by
`verifyRangeProof(proof, 50000, 100000)` returns `true`.  The code violates
this: with witness randomness 1 and blinding 1, creation succeeds but
verification returns `false`.  The commitment is `G^(s+r) mod P` while the
response only accounts for `c·s`, so the verifier reconstructs
`G^(b − c·r) ≠ G^b` and the recomputed challenge differs. -/
theorem rangeProof_completeness_fails :
    (createRangeProof 1 1 75000 50000 100000).isOk = true ∧
    (createRangeProof 1 1 75000 50000 100000).bind
      (fun proof => verifyRangeProof proof 50000 100000) = Except.ok false :=
  ⟨by decide, by decide⟩

/-- C2: for every choice of the internal randomness, a value outside the
declared bounds makes `createRangeProof` fail with `OutOfRange` before any
cryptographic material is produced, returning no proof. -/
theorem createRangeProof_out_of_range (randomness randomBlinding : Int)
    (value lowerBound upperBound : Int)
    (h : value < lowerBound ∨ value > upperBound) :
    createRangeProof randomness randomBlinding value lowerBound upperBound =
      Except.error EngineError.outOfRange := by
  rw [createRangeProof, if_pos h]

/-- Witness for C2: the spec's concrete scenario 3,
`createRangeProof(40000, 50000, 100000)` fails with `OutOfRange`. -/
theorem createRangeProof_out_of_range_spec3 :
    createRangeProof 0 0 40000 50000 100000 =
      Except.error EngineError.outOfRange :=
  createRangeProof_out_of_range 0 0 40000 50000 100000 (by decide)

/-- C4: the `lowerBound` argument of `verifyRangeProof` has no influence on the
verification result — it never enters the reconstructed statement or the hashed
challenge. -/
theorem verifyRangeProof_lowerBound_irrelevant (proof : Proof)
    (l1 l2 upperBound : Int) :
    verifyRangeProof proof l1 upperBound = verifyRangeProof proof l2 upperBound :=
  rfl

/-- C5: `modPow` computes `base ^ exponent mod modulus` (the source's own `%`,
which agrees with the mathematical remainder on the protocol's nonnegative
values) for every base, nonnegative exponent and modulus ≥ 1; the result is
unchanged if the base is first reduced mod the modulus; the result is 0
whenever the modulus is 1; and `modPow(2, 10, 1000) = 24`. -/
theorem modPow_spec (b e m : Int) (he : 0 ≤ e) (hm : 1 ≤ m) :
    modPow b e m = (b ^ e.toNat).tmod m ∧
    modPow (b.tmod m) e m = modPow b e m ∧
    modPow b e 1 = 0 ∧
    modPow 2 10 1000 = 24 := by
  refine ⟨modPow_eq_pow_tmod b e m he hm, ?_, by rw [modPow, if_pos rfl],
    by decide⟩
  rcases eq_or_lt_of_le hm with h1 | h2
  · subst h1
    rw [modPow, modPow, if_pos rfl, if_pos rfl]
  · have hm1 : m ≠ 1 := by omega
    rw [modPow, modPow, if_neg hm1, if_neg hm1, tmod_tmod b m (by omega)]

/-- Witness for C5: the spec's concrete scenario 1, `modPow(2, 10, 1000) = 24`,
obtained by instantiating `modPow_spec`. -/
theorem modPow_spec_instance : modPow 2 10 1000 = 24 :=
  (modPow_spec 2 10 1000 (by decide) (by decide)).2.2.2

/-- C7: `generateProof` fails with `InvalidCommitment` exactly when the
commitment recomputed from the witness differs from the statement's
commitment, and otherwise returns a proof without throwing. -/
theorem generateProof_invalidCommitment_iff (randomBlinding : Int)
    (stmt : Statement) (w : Witness) :
    (generateProof randomBlinding stmt w =
        Except.error EngineError.invalidCommitment ↔
      computeCommitment w ≠ stmt.commitment) ∧
    (computeCommitment w = stmt.commitment →
      ∃ proof, generateProof randomBlinding stmt w = Except.ok proof) := by
  by_cases h : computeCommitment w = stmt.commitment
  · refine ⟨⟨fun herr => ?_, fun hne => absurd h hne⟩, fun _ => ?_⟩
    · rw [generateProof, if_neg (not_not_intro h)] at herr
      exact Except.noConfusion herr
    · simp only [generateProof, if_neg (not_not_intro h)]
      exact ⟨_, rfl⟩
  · exact ⟨⟨fun _ => h, fun _ => by rw [generateProof, if_pos h]⟩,
      fun hc => absurd hc h⟩

/-- Witness for C7: a witness whose commitment string is `"1"` does not match a
statement carrying commitment string `"2"`, so `generateProof` fails with
`InvalidCommitment`. -/
theorem generateProof_invalidCommitment_instance :
    generateProof 0 ⟨5, [50]⟩ ⟨0, 0⟩ =
      Except.error EngineError.invalidCommitment :=
  (generateProof_invalidCommitment_iff 0 ⟨5, [50]⟩ ⟨0, 0⟩).1.mpr (by decide)

/-- C8 counterexample: the claim says `verifyProof` never throws, including on
malformed commitment strings; but on the proof whose commitment string is
`"z"`, the source's `BigInt(proof.commitment)` throws a `SyntaxError`. -/
theorem verifyProof_throws_on_malformed :
    verifyProof ⟨0, []⟩ ⟨[48], 0, [122]⟩ =
      Except.error EngineError.numericSyntax := by decide

/-- C8 (amended): on every statement and every proof whose commitment parses as
a JS numeric string and whose challenge is well-formed hex, `verifyProof` and
`verifyRangeProof` return a boolean and never throw. -/
theorem verifyProof_total_on_wellformed (stmt : Statement) (proof : Proof)
    (lowerBound upperBound : Int)
    (hc : (jsBigInt proof.commitment).isSome)
    (hch : (jsBigInt (48 :: 120 :: proof.challenge)).isSome) :
    (verifyProof stmt proof).isOk = true ∧
    (verifyRangeProof proof lowerBound upperBound).isOk = true := by
  obtain ⟨cv, hcv⟩ := Option.isSome_iff_exists.mp hc
  obtain ⟨chv, hchv⟩ := Option.isSome_iff_exists.mp hch
  constructor
  · simp only [verifyProof, hcv, hchv]
    rfl
  · simp only [verifyRangeProof, verifyProof, hcv, hchv]
    rfl

/-- Witness for C8 (amended): a concrete well-formed proof (commitment `"1"`,
challenge `"0"`) is verified to a boolean by both verifiers. -/
theorem verifyProof_total_instance :
    (verifyProof ⟨0, []⟩ ⟨[48], 0, [49]⟩).isOk = true ∧
    (verifyRangeProof ⟨[48], 0, [49]⟩ 0 0).isOk = true :=
  verifyProof_total_on_wellformed ⟨0, []⟩ ⟨[48], 0, [49]⟩ 0 0
    (by decide) (by decide)

/-- C10: `modInverse(0, m)` returns 1 for every modulus `m > 1`, a value that
is not a modular inverse (the precondition `gcd(a, m) = 1` is violated and the
function silently mis-answers instead of failing). -/
theorem modInverse_zero_not_inverse (m : Int) (hm : 1 < m) :
    modInverse 0 m = 1 ∧ (0 * modInverse 0 m) % m ≠ 1 := by
  have hm1 : m ≠ 1 := by omega
  constructor
  · rw [modInverse, if_neg hm1]
    have hloop : modInverseLoop (m.toNat + 1) 0 m 0 1 = 1 := by
      simp [modInverseLoop]
    simp only [hloop]
    norm_num
  · rw [zero_mul, Int.zero_emod]
    norm_num

/-- Witness for C10: `modInverse(0, 5) = 1` and `0 * 1 ≢ 1 (mod 5)`. -/
theorem modInverse_zero_instance :
    modInverse 0 5 = 1 ∧ (0 * modInverse 0 5) % 5 ≠ 1 :=
  modInverse_zero_not_inverse 5 (by decide)

set_option maxRecDepth 100000 in
/-- C9: verification is invariant under adding the exponent-group period
`P - 1` to a nonnegative response of a well-formed proof, because
`G^(P-1) ≡ 1 (mod P)` (checked by computation) and the response only enters
through `G^response mod P`; accepted proofs are therefore not unique
artifacts. -/
theorem verifyProof_response_malleable (stmt : Statement) (proof : Proof)
    (hr : 0 ≤ proof.response)
    (hc : (jsBigInt proof.commitment).isSome)
    (hch : (jsBigInt (48 :: 120 :: proof.challenge)).isSome) :
    verifyProof stmt
        ⟨proof.challenge, proof.response + (modulus - 1), proof.commitment⟩ =
      verifyProof stmt proof := by
  obtain ⟨cv, hcv⟩ := Option.isSome_iff_exists.mp hc
  obtain ⟨chv, hchv⟩ := Option.isSome_iff_exists.mp hch
  have hmod1 : (1 : Int) ≤ modulus := by decide
  have hp1 : (0 : Int) ≤ modulus - 1 := by decide
  have hg : (0 : Int) ≤ generator := by decide
  have hfermat : modPow generator (modulus - 1) modulus = 1 := by decide
  have hle : modPow generator (proof.response + (modulus - 1)) modulus =
      modPow generator proof.response modulus := by
    rw [modPow_eq_pow_emod generator _ modulus hg (by omega) hmod1,
      modPow_eq_pow_emod generator proof.response modulus hg hr hmod1,
      Int.toNat_add hr hp1, pow_add, Int.mul_emod]
    have h2 : generator ^ (modulus - 1).toNat % modulus = 1 := by
      rw [← modPow_eq_pow_emod generator (modulus - 1) modulus hg hp1 hmod1]
      exact hfermat
    rw [h2, mul_one, Int.emod_emod]
  simp only [verifyProof]
  rw [hle, hcv, hchv]

/-- Witness for C9: instantiation at the well-formed proof with commitment
`"1"`, challenge `"0"` and response 0. -/
theorem verifyProof_response_malleable_instance :
    verifyProof ⟨0, []⟩ ⟨[48], (0 : Int) + (modulus - 1), [49]⟩ =
      verifyProof ⟨0, []⟩ ⟨[48], 0, [49]⟩ :=
  verifyProof_response_malleable ⟨0, []⟩ ⟨[48], 0, [49]⟩
    (by decide) (by decide) (by decide)

/-- C6: for every `m ≥ 1` and nonnegative `a` coprime to `m`, `modInverse`
returns 0 when `m = 1`, and otherwise a value in `[0, m-1]` with
`a · modInverse(a, m) ≡ 1 (mod m)`. -/
theorem modInverse_spec (a m : Int) (ha : 0 ≤ a) (hm : 1 ≤ m)
    (hcop : Int.gcd a m = 1) :
    (m = 1 → modInverse a m = 0) ∧
    (1 < m → 0 ≤ modInverse a m ∧ modInverse a m ≤ m - 1 ∧
      (a * modInverse a m) % m = 1) := by
  constructor
  · intro h1
    rw [modInverse, if_pos h1]
  · intro h2
    have hm1 : m ≠ 1 := by omega
    have ha1 : 1 ≤ a := by
      rcases eq_or_lt_of_le ha with h0 | h0
      · exfalso
        rw [← h0, Int.gcd_zero_left] at hcop
        omega
      · omega
    obtain ⟨u, v, huv⟩ := Int.gcd_eq_one_iff_coprime.mp hcop
    have hca : a ≡ 1 * a [ZMOD m] := by rw [one_mul]
    have hcm : m ≡ 0 * a [ZMOD m] := by
      rw [zero_mul]
      exact Int.modEq_zero_iff_dvd.mpr dvd_rfl
    have hF : |(1 : Int)| * m + |(0 : Int)| * a = m := by simp
    obtain ⟨hcong, hbound⟩ := modInverseLoop_spec a m (by omega) (m.toNat + 1)
      a m 0 1 u v ha1 (by omega) (by omega) huv hca hcm (by simp) hF
    have hb2 := abs_le.mp hbound
    simp only [modInverse, if_neg hm1]
    by_cases hneg : modInverseLoop (m.toNat + 1) a m 0 1 < 0
    · rw [if_pos hneg]
      refine ⟨by omega, by omega, ?_⟩
      have h3 : a * (modInverseLoop (m.toNat + 1) a m 0 1 + m) ≡
          modInverseLoop (m.toNat + 1) a m 0 1 * a [ZMOD m] := by
        have he : a * (modInverseLoop (m.toNat + 1) a m 0 1 + m) =
            modInverseLoop (m.toNat + 1) a m 0 1 * a + m * a := by ring
        rw [he]
        exact Int.modEq_add_fac_self
      have h4 := h3.trans hcong
      have h5 : (a * (modInverseLoop (m.toNat + 1) a m 0 1 + m)) % m = 1 % m := h4
      have h6 : (1 : Int) % m = 1 := Int.emod_eq_of_lt (by norm_num) (by omega)
      rwa [h6] at h5
    · rw [if_neg hneg]
      refine ⟨by omega, by omega, ?_⟩
      have h3 : a * modInverseLoop (m.toNat + 1) a m 0 1 ≡ 1 [ZMOD m] := by
        rw [mul_comm]
        exact hcong
      have h5 : (a * modInverseLoop (m.toNat + 1) a m 0 1) % m = 1 % m := h3
      have h6 : (1 : Int) % m = 1 := Int.emod_eq_of_lt (by norm_num) (by omega)
      rwa [h6] at h5

/-- Witness for C6: `modInverse(3, 10) = 7`, which lies in `[0, 9]` and
satisfies `3·7 ≡ 1 (mod 10)`. -/
theorem modInverse_spec_instance :
    0 ≤ modInverse 3 10 ∧ modInverse 3 10 ≤ 9 ∧
      (3 * modInverse 3 10) % 10 = 1 :=
  (modInverse_spec 3 10 (by decide) (by decide) (by decide)).2 (by decide)
